import Mathlib

/-!
Shallow embedding of the rust-hash repository (src/lib.rs, src/traits.rs,
src/sip.rs): a streaming SipHash-2-4 engine behind small hashing interfaces.
Machine integers u64 and usize are modelled as Nat with explicit truncation
modulo 2 ^ 64 where Rust arithmetic wraps; byte slices are lists of Nat, and
every place the code casts a u8 to u64 the embedding reduces the value
modulo 256, which is the identity on genuine bytes.
-/

namespace RustHash

/-- Truncation to 64 bits: the behaviour of Rust u64 operations that wrap. -/
def wrap64 (x : Nat) : Nat := x % 2 ^ 64

/-- The rotl macro of sip.rs:71-74: rotate a 64-bit word left by b bits,
written as a truncated left shift ored with a right shift by 64 - b. -/
def rotl (x b : Nat) : Nat := wrap64 (x <<< b) ||| (x >>> (64 - b))

/-- The four 64-bit mixing lanes v0, v1, v2, v3 of the SipHash state, the
variables threaded through the compress macro. -/
structure Lanes where
  v0 : Nat
  v1 : Nat
  v2 : Nat
  v3 : Nat
deriving Repr, DecidableEq

/-- The compress macro of sip.rs:76-99: one SipHash compression round, a fixed
add-rotate-xor sequence over the four lanes with wrapping 64-bit addition. -/
def compress (s : Lanes) : Lanes :=
  let v0 := wrap64 (s.v0 + s.v1)
  let v1 := rotl s.v1 13
  let v1 := v1 ^^^ v0
  let v0 := rotl v0 32
  let v2 := wrap64 (s.v2 + s.v3)
  let v3 := rotl s.v3 16
  let v3 := v3 ^^^ v2
  let v0 := wrap64 (v0 + v3)
  let v3 := rotl v3 21
  let v3 := v3 ^^^ v0
  let v2 := wrap64 (v2 + v1)
  let v1 := rotl v1 17
  let v1 := v1 ^^^ v2
  let v2 := rotl v2 32
  ⟨v0, v1, v2, v3⟩

/-- The block-absorption pattern inlined three times in sip.rs (lines 121-124,
137-140 and 158-161): v3 ^= m, two compression rounds, v0 ^= m. -/
def absorbBlock (v : Lanes) (m : Nat) : Lanes :=
  let v := { v with v3 := v.v3 ^^^ m }
  let v := compress (compress v)
  { v with v0 := v.v0 ^^^ m }

/-- The u8to64_le macro of sip.rs:45-54 (three-argument form): assemble len
bytes of buf starting at index i into a little-endian word, oring each byte,
cast to u64, shifted left by eight times its offset. Out-of-range indexing
is totalised with a default of 0; the checked variant below shows the
default is never consulted on in-bounds calls. -/
def u8to64_le (buf : List Nat) (i : Nat) : Nat → Nat
  | 0 => 0
  | len + 1 => u8to64_le buf i len ||| ((buf.getD (len + i) 0) % 256) <<< (len * 8)

/-- load_u64_le of sip.rs:62-69: an unaligned little-endian load of the eight
bytes buf at i through i+7, performed in the source with ptr copy and to_le,
which on in-bounds input equals the shift-and-or byte assembly. -/
def load_u64_le (buf : List Nat) (i : Nat) : Nat :=
  u8to64_le buf i 8

/-- The SipContext struct of sip.rs:25-33, field for field: total length
absorbed, the four lanes (declared in the order v0, v2, v1, v3 as in the
source), the pending-byte buffer tail and its occupancy ntail. -/
structure SipContext where
  length : Nat
  v0 : Nat
  v2 : Nat
  v1 : Nat
  v3 : Nat
  tail : Nat
  ntail : Nat
deriving Repr, DecidableEq

/-- The four lanes of a context gathered into a Lanes value. -/
def SipContext.lanes (s : SipContext) : Lanes :=
  ⟨s.v0, s.v1, s.v2, s.v3⟩

/-- Fuelled form of the full-word while loop of update, sip.rs:134-143: while
i < limit, absorb the word loaded at i and advance i by 8. One fuel unit is
spent per iteration; blocksLoop below always passes enough fuel. -/
def blocksLoopF (msg : List Nat) (limit : Nat) : Nat → Nat → Lanes → Lanes × Nat
  | 0, i, v => (v, i)
  | fuel + 1, i, v =>
    if i < limit then
      blocksLoopF msg limit fuel (i + 8) (absorbBlock v (load_u64_le msg i))
    else (v, i)

/-- The full-word loop of update with its fuel instantiated: limit units of
fuel always cover the at most limit iterations of the source loop. -/
def blocksLoop (msg : List Nat) (limit i : Nat) (v : Lanes) : Lanes × Nat :=
  blocksLoopF msg limit limit i v

/-- Lines 129-146 of update: once any buffered tail has been flushed, process
the full words of msg from index needed upward, then stash the trailing
left = len mod 8 bytes in tail. The argument needed is 0 when no tail was
pending and 8 - ntail when a pending block was completed. -/
def updateTail (s : SipContext) (msg : List Nat) (needed : Nat) : SipContext :=
  let len := msg.length - needed
  let left := len &&& 0x7
  let r := blocksLoop msg (len - left) needed s.lanes
  { s with v0 := r.1.v0, v1 := r.1.v1, v2 := r.1.v2, v3 := r.1.v3,
           tail := u8to64_le msg r.2 left, ntail := left }

/-- SipContext::update, sip.rs:104-147: add the input length to the running
counter; if a partial block is pending either top it up and return (input
shorter than the space left) or complete it, absorb it and fall through to
the full-word loop. -/
def SipContext.update (s : SipContext) (msg : List Nat) : SipContext :=
  let length := msg.length
  let s1 := { s with length := s.length + length }
  if s1.ntail ≠ 0 then
    let needed := 8 - s1.ntail
    if length < needed then
      { s1 with tail := s1.tail ||| wrap64 ((u8to64_le msg 0 length) <<< (8 * s1.ntail)),
                ntail := s1.ntail + length }
    else
      let m := s1.tail ||| wrap64 ((u8to64_le msg 0 needed) <<< (8 * s1.ntail))
      let v := absorbBlock s1.lanes m
      updateTail { s1 with v0 := v.v0, v1 := v.v1, v2 := v.v2, v3 := v.v3, ntail := 0 }
        msg needed
  else
    updateTail s1 msg 0

/-- SipContext::finish, sip.rs:149-170: build the length-tagged pad word,
absorb it, xor 0xff into v2, run four more compression rounds and xor the
four lanes together. -/
def SipContext.finish (s : SipContext) : Nat :=
  let v0 := s.v0
  let v1 := s.v1
  let v2 := s.v2
  let v3 := s.v3
  let b : Nat := ((s.length % 256) <<< 56) ||| s.tail
  let v3 := v3 ^^^ b
  let l := compress (compress ⟨v0, v1, v2, v3⟩)
  let v0 := l.v0 ^^^ b
  let v2 := l.v2 ^^^ 0xff
  let l := compress (compress (compress (compress ⟨v0, l.v1, v2, l.v3⟩)))
  l.v0 ^^^ l.v1 ^^^ l.v2 ^^^ l.v3

/-- The SipHashFunction struct of sip.rs:5-8: the two 64-bit secret keys. -/
structure SipHashFunction where
  k0 : Nat
  k1 : Nat
deriving Repr, DecidableEq

/-- SipHashFunction::init, sip.rs:176-187: derive the initial lanes from the
keys and the four SipHash magic constants, with empty tail and zero length. -/
def SipHashFunction.init (f : SipHashFunction) : SipContext :=
  { v0 := f.k0 ^^^ 0x736f6d6570736575,
    v1 := f.k1 ^^^ 0x646f72616e646f6d,
    v2 := f.k0 ^^^ 0x6c7967656e657261,
    v3 := f.k1 ^^^ 0x7465646279746573,
    length := 0,
    tail := 0,
    ntail := 0 }

/-- HashFunction::digest, the default method of traits.rs:21-26 and
lib.rs:28-33: one-shot hashing as init, one update, finish. -/
def SipHashFunction.digest (f : SipHashFunction) (bytes : List Nat) : Nat :=
  let ctx := f.init
  let ctx := ctx.update bytes
  ctx.finish

/-- HashFunction::digest_u8, the default method of lib.rs:35-38: digest of
the one-element slice holding the byte. -/
def SipHashFunction.digest_u8 (f : SipHashFunction) (v : Nat) : Nat :=
  f.digest [v]

/-! Checked variants: the same update algorithm with every slice read routed
through the option-returning list lookup, so that a read outside the slice
yields none. They certify the in-bounds discipline of the unchecked loads. -/

/-- Checked form of the three-argument u8to64_le macro. -/
def u8to64_leChk (buf : List Nat) (i : Nat) : Nat → Option Nat
  | 0 => some 0
  | len + 1 => do
    let prev ← u8to64_leChk buf i len
    let b ← buf[len + i]?
    some (prev ||| (b % 256) <<< (len * 8))

/-- Checked form of load_u64_le: the eight bytes are read one by one through
the option-returning lookup. -/
def load_u64_leChk (buf : List Nat) (i : Nat) : Option Nat :=
  u8to64_leChk buf i 8

/-- Checked form of the fuelled full-word loop. -/
def blocksLoopChkF (msg : List Nat) (limit : Nat) :
    Nat → Nat → Lanes → Option (Lanes × Nat)
  | 0, i, v => some (v, i)
  | fuel + 1, i, v =>
    if i < limit then do
      let mi ← load_u64_leChk msg i
      blocksLoopChkF msg limit fuel (i + 8) (absorbBlock v mi)
    else some (v, i)

/-- Checked form of the full-word loop with its fuel instantiated. -/
def blocksLoopChk (msg : List Nat) (limit i : Nat) (v : Lanes) : Option (Lanes × Nat) :=
  blocksLoopChkF msg limit limit i v

/-- Checked form of the tail of update. -/
def updateTailChk (s : SipContext) (msg : List Nat) (needed : Nat) : Option SipContext := do
  let len := msg.length - needed
  let left := len &&& 0x7
  let r ← blocksLoopChk msg (len - left) needed s.lanes
  let t ← u8to64_leChk msg r.2 left
  some { s with v0 := r.1.v0, v1 := r.1.v1, v2 := r.1.v2, v3 := r.1.v3,
                tail := t, ntail := left }

/-- Checked form of SipContext::update. -/
def SipContext.updateChk (s : SipContext) (msg : List Nat) : Option SipContext :=
  let length := msg.length
  let s1 := { s with length := s.length + length }
  if s1.ntail ≠ 0 then
    let needed := 8 - s1.ntail
    if length < needed then do
      let w ← u8to64_leChk msg 0 length
      some { s1 with tail := s1.tail ||| wrap64 (w <<< (8 * s1.ntail)),
                     ntail := s1.ntail + length }
    else do
      let w ← u8to64_leChk msg 0 needed
      let m := s1.tail ||| wrap64 (w <<< (8 * s1.ntail))
      let v := absorbBlock s1.lanes m
      updateTailChk { s1 with v0 := v.v0, v1 := v.v1, v2 := v.v2, v3 := v.v3, ntail := 0 }
        msg needed
  else
    updateTailChk s1 msg 0

/-! Reference model: absorption described on byte lists rather than on slice
indices, used to relate different chunkings of the same stream. -/

/-- Little-endian packing of a byte list into a natural number; each entry is
reduced mod 256 exactly as the u8 to u64 casts of the source do. -/
def packLE : List Nat → Nat
  | [] => 0
  | b :: bs => (b % 256) ||| (packLE bs) <<< 8

/-- Little-endian unpacking of the low len bytes of a word into a list. -/
def unpackLE (x : Nat) : Nat → List Nat
  | 0 => []
  | len + 1 => (x % 256) :: unpackLE (x >>> 8) len

/-- The bytes currently buffered in the tail of a context, low byte first. -/
def SipContext.tailBytes (s : SipContext) : List Nat :=
  unpackLE s.tail s.ntail

/-- The tail invariant of the engine: fewer than 8 buffered bytes, and every
byte of tail above the ntail buffered ones zero. -/
def Inv (s : SipContext) : Prop :=
  s.ntail < 8 ∧ s.tail < 2 ^ (8 * s.ntail)

instance (s : SipContext) : Decidable (Inv s) :=
  inferInstanceAs (Decidable (s.ntail < 8 ∧ s.tail < 2 ^ (8 * s.ntail)))

/-- Greedy block consumption, the reference semantics of absorption: while at
least 8 bytes remain, absorb the first 8 as a little-endian block; return the
final lanes and the fewer than 8 leftover bytes. -/
def processStream (v : Lanes) (bytes : List Nat) : Lanes × List Nat :=
  if 8 ≤ bytes.length then
    processStream (absorbBlock v (packLE (bytes.take 8))) (bytes.drop 8)
  else (v, bytes)
termination_by bytes.length
decreasing_by simp [List.length_drop]; omega

/-- Unrolled view of the full-word loop: absorb count blocks loaded from msg
at i, i+8, and so on. -/
def foldBlocks (msg : List Nat) : Nat → Nat → Lanes → Lanes
  | _, 0, v => v
  | i, count + 1, v => foldBlocks msg (i + 8) count (absorbBlock v (load_u64_le msg i))

/-- Reference description of update: append the input bytes, reduced mod 256,
to the buffered tail bytes, absorb full blocks greedily, and keep the
leftover as the new tail. -/
def updateModel (s : SipContext) (msg : List Nat) : SipContext :=
  let r := processStream s.lanes (s.tailBytes ++ msg.map (fun b => b % 256))
  { length := s.length + msg.length,
    v0 := r.1.v0, v1 := r.1.v1, v2 := r.1.v2, v3 := r.1.v3,
    tail := packLE r.2, ntail := r.2.length }

/-- The published SipHash-2-4 reference vectors for the key pair
k0 = 0x0706050403020100, k1 = 0x0f0e0d0c0b0a0908 and the messages
0, 1, ..., len-1 for len = 0 through 63, from the SipHash reference
implementation's vectors table. -/
def sipRefVectors : List Nat :=
  [0x726fdb47dd0e0e31, 0x74f839c593dc67fd, 0x0d6c8009d9a94f5a, 0x85676696d7fb7e2d,
   0xcf2794e0277187b7, 0x18765564cd99a68d, 0xcbc9466e58fee3ce, 0xab0200f58b01d137,
   0x93f5f5799a932462, 0x9e0082df0ba9e4b0, 0x7a5dbbc594ddb9f3, 0xf4b32f46226bada7,
   0x751e8fbc860ee5fb, 0x14ea5627c0843d90, 0xf723ca908e7af2ee, 0xa129ca6149be45e5,
   0x3f2acc7f57c29bdb, 0x699ae9f52cbe4794, 0x4bc1b3f0968dd39c, 0xbb6dc91da77961bd,
   0xbed65cf21aa2ee98, 0xd0f2cbb02e3b67c7, 0x93536795e3a33e88, 0xa80c038ccd5ccec8,
   0xb8ad50c6f649af94, 0xbce192de8a85b8ea, 0x17d835b85bbb15f3, 0x2f2e6163076bcfad,
   0xde4daaaca71dc9a5, 0xa6a2506687956571, 0xad87a3535c49ef28, 0x32d892fad841c342,
   0x7127512f72f27cce, 0xa7f32346f95978e3, 0x12e0b01abb051238, 0x15e034d40fa197ae,
   0x314dffbe0815a3b4, 0x027990f029623981, 0xcadcd4e59ef40c4d, 0x9abfd8766a33735c,
   0x0e3ea96b5304a7d0, 0xad0c42d6fc585992, 0x187306c89bc215a9, 0xd4a60abcf3792b95,
   0xf935451de4f21df2, 0xa9538f0419755787, 0xdb9acddff56ca510, 0xd06c98cd5c0975eb,
   0xe612a3cb9ecba951, 0xc766e62cfcadaf96, 0xee64435a9752fe72, 0xa192d576b245165a,
   0x0a8787bf8ecb74b2, 0x81b3e73d20b49b6f, 0x7fa8220ba3b2ecea, 0x245731c13ca42499,
   0xb78dbfaf3a8d83bd, 0xea1ad565322a1a0b, 0x60e61c23a3795013, 0x6606d7e446282b93,
   0x6ca4ecb15c5f91e1, 0x9f626da15c9625f3, 0xe51b38608ef25f57, 0x958a324ceb064572]

/-! Arithmetic forms of the bit-packing primitives. -/

theorem wrap64_eq_of_lt {x : Nat} (h : x < 2 ^ 64) : wrap64 x = x :=
  Nat.mod_eq_of_lt h

theorem or_shiftLeft_eq_add {n : Nat} (a b : Nat) (h : a < 2 ^ n) :
    a ||| (b <<< n) = a + b * 2 ^ n := by
  apply Nat.eq_of_testBit_eq
  intro i
  rw [Nat.testBit_or, Nat.testBit_shiftLeft]
  rcases Nat.lt_or_ge i n with hi | hi
  · have hd : decide (i ≥ n) = false := by simp [Nat.not_le.mpr hi]
    rw [hd, Bool.false_and, Bool.or_false]
    have h1 : (a + b * 2 ^ n).testBit i = ((a + b * 2 ^ n) % 2 ^ n).testBit i := by
      rw [Nat.testBit_mod_two_pow]
      simp [hi]
    rw [h1, Nat.add_mul_mod_self_right, Nat.mod_eq_of_lt h]
  · have ha : a.testBit i = false :=
      Nat.testBit_lt_two_pow (Nat.lt_of_lt_of_le h (Nat.pow_le_pow_right (by norm_num) hi))
    have hd : decide (i ≥ n) = true := by simp [hi]
    rw [ha, hd, Bool.true_and, Bool.false_or]
    have h2 : (a + b * 2 ^ n).testBit i = ((a + b * 2 ^ n) >>> n).testBit (i - n) := by
      rw [Nat.testBit_shiftRight]
      congr 1
      omega
    have h3 : (a + b * 2 ^ n) >>> n = b := by
      rw [Nat.shiftRight_eq_div_pow,
          Nat.add_mul_div_right _ _ (Nat.pos_pow_of_pos n (by norm_num)),
          Nat.div_eq_of_lt h, Nat.zero_add]
    rw [h2, h3]

theorem packLE_cons (b : Nat) (bs : List Nat) :
    packLE (b :: bs) = b % 256 + packLE bs * 2 ^ 8 := by
  show (b % 256) ||| (packLE bs) <<< 8 = _
  exact or_shiftLeft_eq_add _ _ (by omega)

theorem packLE_lt (bs : List Nat) : packLE bs < 2 ^ (8 * bs.length) := by
  induction bs with
  | nil => simp [packLE]
  | cons b bs ih =>
    have h2 : 2 ^ (8 * (b :: bs).length) = 2 ^ (8 * bs.length) * 2 ^ 8 := by
      rw [List.length_cons, Nat.mul_add, pow_add]
    have h3 : (packLE bs + 1) * 2 ^ 8 ≤ 2 ^ (8 * bs.length) * 2 ^ 8 :=
      Nat.mul_le_mul_right _ ih
    rw [packLE_cons, h2]
    omega

theorem packLE_map_mod (bs : List Nat) :
    packLE (bs.map (fun b => b % 256)) = packLE bs := by
  induction bs with
  | nil => rfl
  | cons b bs ih =>
    simp only [List.map_cons, packLE_cons, ih]
    omega

theorem packLE_append (xs ys : List Nat) :
    packLE (xs ++ ys) = packLE xs + packLE ys * 2 ^ (8 * xs.length) := by
  induction xs with
  | nil => simp [packLE]
  | cons b bs ih =>
    simp only [List.cons_append, packLE_cons, ih, List.length_cons]
    have h : 2 ^ (8 * (bs.length + 1)) = 2 ^ (8 * bs.length) * 2 ^ 8 := by
      rw [Nat.mul_add, pow_add]
    rw [h]
    ring

theorem unpackLE_length (x : Nat) : ∀ len, (unpackLE x len).length = len := by
  intro len
  induction len generalizing x with
  | zero => rfl
  | succ len ih => simp [unpackLE, ih]

theorem unpackLE_mem_lt (x : Nat) :
    ∀ len, ∀ b ∈ unpackLE x len, b < 256 := by
  intro len
  induction len generalizing x with
  | zero => intro b hb; simp [unpackLE] at hb
  | succ len ih =>
    intro b hb
    simp only [unpackLE, List.mem_cons] at hb
    rcases hb with hb | hb
    · omega
    · exact ih _ _ hb

theorem packLE_unpackLE : ∀ (len x : Nat), x < 2 ^ (8 * len) →
    packLE (unpackLE x len) = x := by
  intro len
  induction len with
  | zero =>
    intro x hx
    have hx0 : x = 0 := by simpa using hx
    subst hx0
    rfl
  | succ len ih =>
    intro x hx
    have hdiv : x >>> 8 < 2 ^ (8 * len) := by
      rw [Nat.shiftRight_eq_div_pow]
      have h8 : 8 * (len + 1) = 8 * len + 8 := by ring
      rw [h8, pow_add] at hx
      exact Nat.div_lt_of_lt_mul (by omega)
    simp only [unpackLE, packLE_cons, ih _ hdiv]
    rw [Nat.shiftRight_eq_div_pow]
    omega

theorem unpackLE_packLE : ∀ (bs : List Nat),
    unpackLE (packLE bs) bs.length = bs.map (fun b => b % 256) := by
  intro bs
  induction bs with
  | nil => rfl
  | cons b bs ih =>
    have hmod : packLE (b :: bs) % 256 = b % 256 := by
      rw [packLE_cons]
      omega
    have hdiv : packLE (b :: bs) >>> 8 = packLE bs := by
      rw [packLE_cons, Nat.shiftRight_eq_div_pow]
      omega
    simp only [List.length_cons, unpackLE, hmod, hdiv, ih, List.map_cons]

theorem u8to64_le_lt (buf : List Nat) (i : Nat) :
    ∀ len, u8to64_le buf i len < 2 ^ (8 * len) := by
  intro len
  induction len with
  | zero => simp [u8to64_le]
  | succ len ih =>
    have h1 : u8to64_le buf i len < 2 ^ (8 * (len + 1)) :=
      Nat.lt_of_lt_of_le ih (Nat.pow_le_pow_right (by norm_num) (by omega))
    have h2 : ((buf.getD (len + i) 0) % 256) <<< (len * 8) < 2 ^ (8 * (len + 1)) := by
      rw [Nat.shiftLeft_eq]
      have hb : (buf.getD (len + i) 0) % 256 < 2 ^ 8 := by omega
      calc (buf.getD (len + i) 0) % 256 * 2 ^ (len * 8)
          < 2 ^ 8 * 2 ^ (len * 8) := by
            exact Nat.mul_lt_mul_of_lt_of_le hb (Nat.le_refl _) (by positivity)
        _ = 2 ^ (8 * (len + 1)) := by rw [← pow_add]; ring_nf
    exact Nat.or_lt_two_pow h1 h2

theorem u8to64_le_succ_add (buf : List Nat) (i len : Nat) :
    u8to64_le buf i (len + 1) =
      u8to64_le buf i len + (buf.getD (len + i) 0) % 256 * 2 ^ (8 * len) := by
  show u8to64_le buf i len ||| ((buf.getD (len + i) 0) % 256) <<< (len * 8) = _
  rw [Nat.mul_comm len 8]
  exact or_shiftLeft_eq_add _ _ (u8to64_le_lt buf i len)

theorem u8to64_le_eq_packLE (buf : List Nat) :
    ∀ (len i : Nat), i + len ≤ buf.length →
      u8to64_le buf i len = packLE ((buf.drop i).take len) := by
  intro len
  induction len with
  | zero => intro i h; rfl
  | succ len ih =>
    intro i h
    have hlen : len < (buf.drop i).length := by
      rw [List.length_drop]
      omega
    have hidx : i + len < buf.length := by omega
    have htake : (buf.drop i).take (len + 1)
        = (buf.drop i).take len ++ [buf[i + len]] := by
      rw [List.take_succ, List.getElem?_drop]
      rw [List.getElem?_eq_getElem hidx]
      rfl
    have htlen : ((buf.drop i).take len).length = len := by
      rw [List.length_take, List.length_drop]
      omega
    have hgetD : buf.getD (len + i) 0 = buf[i + len] := by
      rw [List.getD_eq_getElem?_getD]
      rw [show len + i = i + len from by omega, List.getElem?_eq_getElem hidx]
      rfl
    rw [u8to64_le_succ_add, ih i (by omega), htake, packLE_append, htlen, hgetD]
    have hsing : packLE [buf[i + len]] = buf[i + len] % 256 := by
      rw [packLE_cons]
      show _ = buf[i + len] % 256
      simp [packLE]
    rw [hsing]

theorem u8to64_le_full (msg : List Nat) :
    u8to64_le msg 0 msg.length = packLE msg := by
  rw [u8to64_le_eq_packLE msg msg.length 0 (by omega), List.drop_zero,
      List.take_of_length_le (Nat.le_refl _)]

/-! The full-word loop: its unrolled form and its checked form. -/

theorem blocksLoopF_eq_foldBlocks (msg : List Nat) (limit : Nat) (q : Nat) :
    ∀ (fuel i : Nat) (v : Lanes), limit - i ≤ 8 * q → 8 * q < limit - i + 8 → q ≤ fuel →
      blocksLoopF msg limit fuel i v = (foldBlocks msg i q v, i + 8 * q) := by
  induction q with
  | zero =>
    intro fuel i v h1 h2 h3
    have hle : ¬ i < limit := by omega
    cases fuel with
    | zero => simp [blocksLoopF, foldBlocks]
    | succ fuel => simp [blocksLoopF, hle, foldBlocks]
  | succ q ih =>
    intro fuel i v h1 h2 h3
    have hlt : i < limit := by omega
    cases fuel with
    | zero => omega
    | succ fuel =>
      have hrec := ih fuel (i + 8) (absorbBlock v (load_u64_le msg i))
        (by omega) (by omega) (by omega)
      simp only [blocksLoopF, if_pos hlt, hrec, foldBlocks]
      rw [Prod.mk.injEq]
      exact ⟨rfl, by omega⟩

theorem blocksLoop_eq_foldBlocks (msg : List Nat) (limit i q : Nat) (v : Lanes)
    (h1 : limit - i ≤ 8 * q) (h2 : 8 * q < limit - i + 8) :
    blocksLoop msg limit i v = (foldBlocks msg i q v, i + 8 * q) :=
  blocksLoopF_eq_foldBlocks msg limit q limit i v h1 h2 (by omega)

theorem u8to64_leChk_eq (buf : List Nat) :
    ∀ (len i : Nat), i + len ≤ buf.length →
      u8to64_leChk buf i len = some (u8to64_le buf i len) := by
  intro len
  induction len with
  | zero => intro i h; rfl
  | succ len ih =>
    intro i h
    have hidx : len + i < buf.length := by omega
    have hb : buf[len + i]? = some buf[len + i] := List.getElem?_eq_getElem hidx
    have hgetD : buf.getD (len + i) 0 = buf[len + i] := by
      rw [List.getD_eq_getElem?_getD, hb]
      rfl
    simp only [u8to64_leChk, ih i (by omega), hb, Option.bind_eq_bind,
      Option.some_bind, u8to64_le, hgetD]

theorem load_u64_leChk_eq (buf : List Nat) (i : Nat) (h : i + 8 ≤ buf.length) :
    load_u64_leChk buf i = some (load_u64_le buf i) :=
  u8to64_leChk_eq buf 8 i h

theorem blocksLoopChkF_eq (msg : List Nat) (limit : Nat) (q : Nat) :
    ∀ (fuel i : Nat) (v : Lanes), limit - i ≤ 8 * q → 8 * q < limit - i + 8 → q ≤ fuel →
      i + 8 * q ≤ msg.length →
      blocksLoopChkF msg limit fuel i v = some (blocksLoopF msg limit fuel i v) := by
  induction q with
  | zero =>
    intro fuel i v h1 h2 h3 h4
    have hle : ¬ i < limit := by omega
    cases fuel with
    | zero => rfl
    | succ fuel => simp [blocksLoopChkF, blocksLoopF, hle]
  | succ q ih =>
    intro fuel i v h1 h2 h3 h4
    have hlt : i < limit := by omega
    cases fuel with
    | zero => omega
    | succ fuel =>
      have hbound : i + 8 ≤ msg.length := by omega
      have hrec := ih fuel (i + 8) (absorbBlock v (load_u64_le msg i))
        (by omega) (by omega) (by omega) (by omega)
      simp only [blocksLoopChkF, blocksLoopF, if_pos hlt, load_u64_leChk_eq msg i hbound,
        Option.bind_eq_bind, Option.some_bind, hrec]

theorem blocksLoopChk_eq (msg : List Nat) (limit i q : Nat) (v : Lanes)
    (h1 : limit - i ≤ 8 * q) (h2 : 8 * q < limit - i + 8) (h4 : i + 8 * q ≤ msg.length) :
    blocksLoopChk msg limit i v = some (blocksLoop msg limit i v) :=
  blocksLoopChkF_eq msg limit q limit i v h1 h2 (by omega) h4

/-! The reference stream semantics and its relation to the indexed loop. -/

theorem processStream_short (v : Lanes) (bs : List Nat) (h : bs.length < 8) :
    processStream v bs = (v, bs) := by
  rw [processStream]
  simp [Nat.not_le.mpr h]

theorem processStream_step (v : Lanes) (bs : List Nat) (h : 8 ≤ bs.length) :
    processStream v bs = processStream (absorbBlock v (packLE (bs.take 8))) (bs.drop 8) := by
  conv_lhs => rw [processStream]
  rw [if_pos h]

theorem processStream_append (v : Lanes) (xs ys : List Nat) :
    processStream v (xs ++ ys) =
      processStream (processStream v xs).1 ((processStream v xs).2 ++ ys) := by
  by_cases h : 8 ≤ xs.length
  · have hxy : 8 ≤ (xs ++ ys).length := by
      rw [List.length_append]
      omega
    rw [processStream_step v (xs ++ ys) hxy, processStream_step v xs h,
        List.take_append_of_le_length h, List.drop_append_of_le_length h]
    exact processStream_append _ (xs.drop 8) ys
  · rw [processStream_short v xs (by omega)]
termination_by xs.length
decreasing_by simp [List.length_drop]; omega

theorem processStream_snd_length_lt (v : Lanes) (bs : List Nat) :
    (processStream v bs).2.length < 8 := by
  by_cases h : 8 ≤ bs.length
  · rw [processStream_step v bs h]
    exact processStream_snd_length_lt _ (bs.drop 8)
  · rw [processStream_short v bs (by omega)]
    simpa using by omega
termination_by bs.length
decreasing_by simp [List.length_drop]; omega

theorem processStream_snd_subset (v : Lanes) (bs : List Nat) :
    ∀ b ∈ (processStream v bs).2, b ∈ bs := by
  by_cases h : 8 ≤ bs.length
  · intro b hb
    rw [processStream_step v bs h] at hb
    exact List.mem_of_mem_drop (processStream_snd_subset _ (bs.drop 8) b hb)
  · rw [processStream_short v bs (by omega)]
    intro b hb
    simpa using hb
termination_by bs.length
decreasing_by simp [List.length_drop]; omega

theorem processStream_drop (msg : List Nat) (q : Nat) :
    ∀ (i left : Nat) (v : Lanes), left < 8 → i + 8 * q + left = msg.length →
      processStream v ((msg.drop i).map (fun b => b % 256)) =
        (foldBlocks msg i q v, (msg.drop (i + 8 * q)).map (fun b => b % 256)) := by
  induction q with
  | zero =>
    intro i left v hleft hlen
    have hlen2 : ((msg.drop i).map (fun b => b % 256)).length < 8 := by
      rw [List.length_map, List.length_drop]
      omega
    rw [processStream_short _ _ hlen2]
    simp [foldBlocks]
  | succ q ih =>
    intro i left v hleft hlen
    have hlen8 : 8 ≤ ((msg.drop i).map (fun b => b % 256)).length := by
      rw [List.length_map, List.length_drop]
      omega
    rw [processStream_step _ _ hlen8]
    have htake : ((msg.drop i).map (fun b => b % 256)).take 8
        = ((msg.drop i).take 8).map (fun b => b % 256) :=
      (List.map_take _ _ _).symm
    have hpack : packLE (((msg.drop i).take 8).map (fun b => b % 256))
        = load_u64_le msg i := by
      rw [packLE_map_mod, load_u64_le, u8to64_le_eq_packLE msg 8 i (by omega)]
    have hdrop : ((msg.drop i).map (fun b => b % 256)).drop 8
        = (msg.drop (i + 8)).map (fun b => b % 256) := by
      rw [← List.map_drop, List.drop_drop]
    rw [htake, hpack, hdrop,
        ih (i + 8) left (absorbBlock v (load_u64_le msg i)) hleft (by omega)]
    have harith : i + 8 + 8 * q = i + 8 * (q + 1) := by omega
    rw [harith]
    rfl

theorem tailBytes_length (s : SipContext) : s.tailBytes.length = s.ntail :=
  unpackLE_length _ _

theorem tailBytes_packLE (s : SipContext) (h : Inv s) : packLE s.tailBytes = s.tail :=
  packLE_unpackLE s.ntail s.tail h.2

theorem tailBytes_mem_lt (s : SipContext) : ∀ b ∈ s.tailBytes, b < 256 :=
  unpackLE_mem_lt _ _

theorem updateTail_def (s : SipContext) (msg : List Nat) (needed : Nat) :
    updateTail s msg needed =
      { s with
        v0 := (blocksLoop msg (msg.length - needed - ((msg.length - needed) &&& 0x7))
                needed s.lanes).1.v0,
        v1 := (blocksLoop msg (msg.length - needed - ((msg.length - needed) &&& 0x7))
                needed s.lanes).1.v1,
        v2 := (blocksLoop msg (msg.length - needed - ((msg.length - needed) &&& 0x7))
                needed s.lanes).1.v2,
        v3 := (blocksLoop msg (msg.length - needed - ((msg.length - needed) &&& 0x7))
                needed s.lanes).1.v3,
        tail := u8to64_le msg
          (blocksLoop msg (msg.length - needed - ((msg.length - needed) &&& 0x7))
            needed s.lanes).2
          ((msg.length - needed) &&& 0x7),
        ntail := (msg.length - needed) &&& 0x7 } := rfl

theorem and_seven_eq_mod (n : Nat) : n &&& 0x7 = n % 8 := by
  have h7 : (0x7 : Nat) = 2 ^ 3 - 1 := by norm_num
  have h8 : (8 : Nat) = 2 ^ 3 := by norm_num
  rw [h7, h8, Nat.and_pow_two_sub_one_eq_mod]

theorem updateTail_model (s : SipContext) (msg : List Nat) (needed : Nat)
    (h1 : needed < 8) (h2 : needed ≤ msg.length) :
    updateTail s msg needed =
      { s with
        v0 := (processStream s.lanes ((msg.drop needed).map (fun b => b % 256))).1.v0,
        v1 := (processStream s.lanes ((msg.drop needed).map (fun b => b % 256))).1.v1,
        v2 := (processStream s.lanes ((msg.drop needed).map (fun b => b % 256))).1.v2,
        v3 := (processStream s.lanes ((msg.drop needed).map (fun b => b % 256))).1.v3,
        tail := packLE (processStream s.lanes ((msg.drop needed).map (fun b => b % 256))).2,
        ntail := (processStream s.lanes ((msg.drop needed).map (fun b => b % 256))).2.length }
    := by
  have hq : 8 * ((msg.length - needed) / 8) + (msg.length - needed) % 8
      = msg.length - needed := by omega
  have hproc := processStream_drop msg ((msg.length - needed) / 8) needed
    ((msg.length - needed) % 8) s.lanes (by omega) (by omega)
  have hloop := blocksLoop_eq_foldBlocks msg
    (msg.length - needed - ((msg.length - needed) &&& 0x7)) needed
    ((msg.length - needed) / 8) s.lanes
    (by rw [and_seven_eq_mod]; omega) (by rw [and_seven_eq_mod]; omega)
  have htail : u8to64_le msg (needed + 8 * ((msg.length - needed) / 8))
      ((msg.length - needed) &&& 0x7)
      = packLE ((msg.drop (needed + 8 * ((msg.length - needed) / 8))).map
          (fun b => b % 256)) := by
    rw [and_seven_eq_mod, packLE_map_mod,
        u8to64_le_eq_packLE msg ((msg.length - needed) % 8)
          (needed + 8 * ((msg.length - needed) / 8)) (by omega)]
    congr 1
    apply List.take_of_length_le
    rw [List.length_drop]
    omega
  rw [updateTail_def, hproc, hloop]
  have hntail : ((msg.length - needed) &&& 0x7)
      = ((msg.drop (needed + 8 * ((msg.length - needed) / 8))).map
          (fun b => b % 256)).length := by
    rw [and_seven_eq_mod, List.length_map, List.length_drop]
    omega
  rw [SipContext.mk.injEq]
  refine ⟨rfl, rfl, rfl, rfl, rfl, ?_, ?_⟩
  · exact htail
  · exact hntail

/-! Relating update to the reference stream semantics. -/

theorem update_def (s : SipContext) (msg : List Nat) :
    s.update msg =
      if s.ntail ≠ 0 then
        if msg.length < 8 - s.ntail then
          { s with length := s.length + msg.length,
                   tail := s.tail ||| wrap64 ((u8to64_le msg 0 msg.length) <<< (8 * s.ntail)),
                   ntail := s.ntail + msg.length }
        else
          updateTail
            { s with
              length := s.length + msg.length,
              v0 := (absorbBlock s.lanes
                (s.tail ||| wrap64 ((u8to64_le msg 0 (8 - s.ntail)) <<< (8 * s.ntail)))).v0,
              v1 := (absorbBlock s.lanes
                (s.tail ||| wrap64 ((u8to64_le msg 0 (8 - s.ntail)) <<< (8 * s.ntail)))).v1,
              v2 := (absorbBlock s.lanes
                (s.tail ||| wrap64 ((u8to64_le msg 0 (8 - s.ntail)) <<< (8 * s.ntail)))).v2,
              v3 := (absorbBlock s.lanes
                (s.tail ||| wrap64 ((u8to64_le msg 0 (8 - s.ntail)) <<< (8 * s.ntail)))).v3,
              ntail := 0 }
            msg (8 - s.ntail)
      else updateTail { s with length := s.length + msg.length } msg 0 := rfl

theorem updateModel_def (s : SipContext) (msg : List Nat) :
    updateModel s msg =
      { length := s.length + msg.length,
        v0 := (processStream s.lanes (s.tailBytes ++ msg.map (fun b => b % 256))).1.v0,
        v1 := (processStream s.lanes (s.tailBytes ++ msg.map (fun b => b % 256))).1.v1,
        v2 := (processStream s.lanes (s.tailBytes ++ msg.map (fun b => b % 256))).1.v2,
        v3 := (processStream s.lanes (s.tailBytes ++ msg.map (fun b => b % 256))).1.v3,
        tail := packLE (processStream s.lanes (s.tailBytes ++ msg.map (fun b => b % 256))).2,
        ntail := (processStream s.lanes (s.tailBytes ++ msg.map (fun b => b % 256))).2.length }
    := rfl

theorem update_eq_model (s : SipContext) (msg : List Nat) (h : Inv s) :
    s.update msg = updateModel s msg := by
  rw [update_def, updateModel_def]
  by_cases h0 : s.ntail = 0
  · rw [if_neg (by simp [h0])]
    have htb : s.tailBytes = [] := by
      simp [SipContext.tailBytes, h0, unpackLE]
    rw [updateTail_model _ msg 0 (by omega) (by omega), htb, List.nil_append, List.drop_zero]
    rfl
  · rw [if_pos h0]
    have hnt8 : s.ntail < 8 := h.1
    by_cases h1 : msg.length < 8 - s.ntail
    · rw [if_pos h1]
      have hshort : (s.tailBytes ++ msg.map (fun b => b % 256)).length < 8 := by
        rw [List.length_append, tailBytes_length, List.length_map]
        omega
      rw [processStream_short _ _ hshort]
      have hb : packLE msg <<< (8 * s.ntail) < 2 ^ 64 := by
        rw [Nat.shiftLeft_eq]
        have hX := packLE_lt msg
        have h2 : packLE msg * 2 ^ (8 * s.ntail)
            < 2 ^ (8 * msg.length) * 2 ^ (8 * s.ntail) :=
          mul_lt_mul_of_pos_right hX (by positivity)
        have h3 : 2 ^ (8 * msg.length) * 2 ^ (8 * s.ntail) ≤ 2 ^ 64 := by
          rw [← pow_add]
          exact Nat.pow_le_pow_right (by norm_num) (by omega)
        omega
      have htail : s.tail ||| wrap64 ((u8to64_le msg 0 msg.length) <<< (8 * s.ntail))
          = packLE (s.tailBytes ++ msg.map (fun b => b % 256)) := by
        rw [u8to64_le_full, wrap64_eq_of_lt hb, or_shiftLeft_eq_add _ _ h.2,
            packLE_append, tailBytes_packLE s h, packLE_map_mod, tailBytes_length]
      have hntail : s.ntail + msg.length
          = (s.tailBytes ++ msg.map (fun b => b % 256)).length := by
        rw [List.length_append, tailBytes_length, List.length_map]
      rw [SipContext.mk.injEq]
      exact ⟨rfl, rfl, rfl, rfl, rfl, htail, hntail⟩
    · rw [if_neg h1]
      have hneed : 8 - s.ntail ≤ msg.length := by omega
      have h8 : (8 : Nat) = s.tailBytes.length + (8 - s.ntail) := by
        rw [tailBytes_length]
        omega
      have htake8 : (s.tailBytes ++ msg.map (fun b => b % 256)).take 8
          = s.tailBytes ++ (msg.take (8 - s.ntail)).map (fun b => b % 256) := by
        conv_lhs => rw [h8]
        rw [List.take_append, ← List.map_take]
      have hm : s.tail ||| wrap64 ((u8to64_le msg 0 (8 - s.ntail)) <<< (8 * s.ntail))
          = packLE ((s.tailBytes ++ msg.map (fun b => b % 256)).take 8) := by
        rw [htake8, packLE_append, tailBytes_packLE s h, tailBytes_length, packLE_map_mod,
            u8to64_le_eq_packLE msg (8 - s.ntail) 0 (by omega), List.drop_zero]
        have hb : packLE (msg.take (8 - s.ntail)) <<< (8 * s.ntail) < 2 ^ 64 := by
          rw [Nat.shiftLeft_eq]
          have hX := packLE_lt (msg.take (8 - s.ntail))
          have hlt : (msg.take (8 - s.ntail)).length = 8 - s.ntail := by
            rw [List.length_take]
            omega
          rw [hlt] at hX
          have h2 : packLE (msg.take (8 - s.ntail)) * 2 ^ (8 * s.ntail)
              < 2 ^ (8 * (8 - s.ntail)) * 2 ^ (8 * s.ntail) :=
            mul_lt_mul_of_pos_right hX (by positivity)
          have h3 : 2 ^ (8 * (8 - s.ntail)) * 2 ^ (8 * s.ntail) ≤ 2 ^ 64 := by
            rw [← pow_add]
            exact Nat.pow_le_pow_right (by norm_num) (by omega)
          omega
        rw [wrap64_eq_of_lt hb, or_shiftLeft_eq_add _ _ h.2]
      have hstream : 8 ≤ (s.tailBytes ++ msg.map (fun b => b % 256)).length := by
        rw [List.length_append, tailBytes_length, List.length_map]
        omega
      have hdrop8 : (s.tailBytes ++ msg.map (fun b => b % 256)).drop 8
          = (msg.drop (8 - s.ntail)).map (fun b => b % 256) := by
        conv_lhs => rw [h8]
        rw [List.drop_append, ← List.map_drop]
      rw [updateTail_model _ msg (8 - s.ntail) (by omega) hneed,
          processStream_step _ _ hstream, hdrop8, ← hm]
      rfl

theorem inv_updateModel (s : SipContext) (msg : List Nat) : Inv (updateModel s msg) := by
  rw [updateModel_def]
  constructor
  · exact processStream_snd_length_lt _ _
  · exact packLE_lt _

theorem updateModel_mem_lt (s : SipContext) (msg : List Nat) :
    ∀ b ∈ (processStream s.lanes (s.tailBytes ++ msg.map (fun b => b % 256))).2,
      b < 256 := by
  intro b hb
  have hmem := processStream_snd_subset _ _ b hb
  rcases List.mem_append.mp hmem with hm | hm
  · exact tailBytes_mem_lt s b hm
  · rcases List.mem_map.mp hm with ⟨a, _, ha⟩
    omega

theorem tailBytes_updateModel (s : SipContext) (msg : List Nat) :
    (updateModel s msg).tailBytes
      = (processStream s.lanes (s.tailBytes ++ msg.map (fun b => b % 256))).2 := by
  show unpackLE
      (packLE (processStream s.lanes (s.tailBytes ++ msg.map (fun b => b % 256))).2)
      (processStream s.lanes (s.tailBytes ++ msg.map (fun b => b % 256))).2.length
    = _
  rw [unpackLE_packLE]
  rw [List.map_congr_left (fun a ha => Nat.mod_eq_of_lt (updateModel_mem_lt s msg a ha))]
  exact List.map_id' _

theorem lanes_updateModel (s : SipContext) (msg : List Nat) :
    (updateModel s msg).lanes
      = (processStream s.lanes (s.tailBytes ++ msg.map (fun b => b % 256))).1 := rfl

theorem length_updateModel (s : SipContext) (msg : List Nat) :
    (updateModel s msg).length = s.length + msg.length := rfl

theorem updateModel_append (s : SipContext) (a b : List Nat) :
    updateModel (updateModel s a) b = updateModel s (a ++ b) := by
  rw [updateModel_def (updateModel s a) b, tailBytes_updateModel, lanes_updateModel,
      length_updateModel, updateModel_def s (a ++ b)]
  rw [List.map_append, ← List.append_assoc, processStream_append s.lanes
    (s.tailBytes ++ a.map (fun x => x % 256)) (b.map (fun x => x % 256))]
  rw [SipContext.mk.injEq]
  refine ⟨?_, rfl, rfl, rfl, rfl, rfl, rfl⟩
  rw [List.length_append]
  omega

theorem update_nil (s : SipContext) (h : Inv s) : s.update [] = s := by
  obtain ⟨L, a0, a2, a1, a3, t, n⟩ := s
  rw [update_eq_model _ [] h, updateModel_def]
  have hshort : ((SipContext.mk L a0 a2 a1 a3 t n).tailBytes
      ++ List.map (fun b => b % 256) []).length < 8 := by
    simp only [List.map_nil, List.append_nil, tailBytes_length]
    exact h.1
  rw [processStream_short _ _ hshort]
  simp only [List.map_nil, List.append_nil, List.length_nil, Nat.add_zero]
  rw [SipContext.mk.injEq]
  exact ⟨rfl, rfl, rfl, rfl, rfl, tailBytes_packLE _ h, tailBytes_length _⟩

theorem update_append (s : SipContext) (a b : List Nat) (h : Inv s) :
    (s.update a).update b = s.update (a ++ b) := by
  rw [update_eq_model s a h, update_eq_model s (a ++ b) h,
      update_eq_model (updateModel s a) b (inv_updateModel s a)]
  exact updateModel_append s a b

theorem inv_init (f : SipHashFunction) : Inv f.init := by
  constructor
  · norm_num [SipHashFunction.init]
  · norm_num [SipHashFunction.init]

theorem inv_update (s : SipContext) (msg : List Nat) (h : Inv s) :
    Inv (s.update msg) := by
  rw [update_eq_model s msg h]
  exact inv_updateModel s msg

/-! The checked update agrees with the unchecked one on invariant states. -/

theorem updateTailChk_def (s : SipContext) (msg : List Nat) (needed : Nat) :
    updateTailChk s msg needed =
      (blocksLoopChk msg (msg.length - needed - ((msg.length - needed) &&& 0x7))
          needed s.lanes).bind
        (fun r => (u8to64_leChk msg r.2 ((msg.length - needed) &&& 0x7)).bind
          (fun t => some { s with
                           v0 := r.1.v0, v1 := r.1.v1, v2 := r.1.v2, v3 := r.1.v3,
                           tail := t,
                           ntail := (msg.length - needed) &&& 0x7 })) := rfl

theorem updateTailChk_eq (s : SipContext) (msg : List Nat) (needed : Nat)
    (h1 : needed < 8) (h2 : needed ≤ msg.length) :
    updateTailChk s msg needed = some (updateTail s msg needed) := by
  have c1 : msg.length - needed - ((msg.length - needed) &&& 0x7) - needed
      ≤ 8 * ((msg.length - needed) / 8) := by
    rw [and_seven_eq_mod]
    omega
  have c2 : 8 * ((msg.length - needed) / 8)
      < msg.length - needed - ((msg.length - needed) &&& 0x7) - needed + 8 := by
    rw [and_seven_eq_mod]
    omega
  have c4 : needed + 8 * ((msg.length - needed) / 8) ≤ msg.length := by
    omega
  have hloop := blocksLoop_eq_foldBlocks msg
    (msg.length - needed - ((msg.length - needed) &&& 0x7)) needed
    ((msg.length - needed) / 8) s.lanes c1 c2
  have htl := u8to64_leChk_eq msg ((msg.length - needed) &&& 0x7)
    (needed + 8 * ((msg.length - needed) / 8))
    (by rw [and_seven_eq_mod]; omega)
  rw [updateTailChk_def, updateTail_def,
      blocksLoopChk_eq msg _ needed ((msg.length - needed) / 8) s.lanes c1 c2 c4,
      hloop]
  simp only [Option.bind_eq_bind, Option.some_bind]
  rw [htl]
  simp only [Option.some_bind]

theorem updateChk_def (s : SipContext) (msg : List Nat) :
    s.updateChk msg =
      if s.ntail ≠ 0 then
        if msg.length < 8 - s.ntail then
          (u8to64_leChk msg 0 msg.length).bind (fun w =>
            some { s with
                   length := s.length + msg.length,
                   tail := s.tail ||| wrap64 (w <<< (8 * s.ntail)),
                   ntail := s.ntail + msg.length })
        else
          (u8to64_leChk msg 0 (8 - s.ntail)).bind (fun w =>
            updateTailChk
              { s with
                length := s.length + msg.length,
                v0 := (absorbBlock s.lanes (s.tail ||| wrap64 (w <<< (8 * s.ntail)))).v0,
                v1 := (absorbBlock s.lanes (s.tail ||| wrap64 (w <<< (8 * s.ntail)))).v1,
                v2 := (absorbBlock s.lanes (s.tail ||| wrap64 (w <<< (8 * s.ntail)))).v2,
                v3 := (absorbBlock s.lanes (s.tail ||| wrap64 (w <<< (8 * s.ntail)))).v3,
                ntail := 0 }
              msg (8 - s.ntail))
      else updateTailChk { s with length := s.length + msg.length } msg 0 := rfl

/-! Preservation of the tail invariant and chunking invariance. -/

/-- C10: for every engine state satisfying the tail invariant and every input,
running update with every slice read routed through the option-returning
lookup never takes the out-of-bounds branch: it returns exactly the unchecked
result, so each 8-byte load and the trailing read are in bounds. -/
theorem update_checked (s : SipContext) (msg : List Nat) (_h : Inv s) :
    s.updateChk msg = some (s.update msg) := by
  rw [updateChk_def, update_def]
  by_cases h0 : s.ntail = 0
  · rw [if_neg (by simp [h0]), if_neg (by simp [h0])]
    exact updateTailChk_eq _ msg 0 (by omega) (by omega)
  · rw [if_pos h0, if_pos h0]
    by_cases h1 : msg.length < 8 - s.ntail
    · rw [if_pos h1, if_pos h1, u8to64_leChk_eq msg msg.length 0 (by omega)]
      simp only [Option.bind_eq_bind, Option.some_bind]
    · rw [if_neg h1, if_neg h1, u8to64_leChk_eq msg (8 - s.ntail) 0 (by omega)]
      simp only [Option.bind_eq_bind, Option.some_bind]
      exact updateTailChk_eq _ msg (8 - s.ntail) (by omega) (by omega)

theorem update_checked_witness :
    (SipContext.mk 3 1 2 3 4 0x0201 2).updateChk [9, 10, 11, 12, 13, 14, 15, 16, 17]
      = some ((SipContext.mk 3 1 2 3 4 0x0201 2).update
          [9, 10, 11, 12, 13, 14, 15, 16, 17]) :=
  update_checked _ _ (by decide)

/-- C6: the tail invariant, ntail below 8 and every byte of tail above the
ntail buffered bytes zero, holds of every freshly initialized engine, is
preserved by every update call, and therefore holds of every state reachable
from init by a sequence of update calls. -/
theorem tail_invariant :
    (∀ f : SipHashFunction, Inv f.init) ∧
    (∀ (s : SipContext) (msg : List Nat), Inv s → Inv (s.update msg)) ∧
    (∀ (f : SipHashFunction) (msgs : List (List Nat)),
      Inv (msgs.foldl SipContext.update f.init)) := by
  refine ⟨inv_init, inv_update, ?_⟩
  intro f msgs
  have aux : ∀ (l : List (List Nat)) (s : SipContext), Inv s →
      Inv (l.foldl SipContext.update s) := by
    intro l
    induction l with
    | nil => intro s hs; exact hs
    | cons c cs ih => intro s hs; exact ih _ (inv_update s c hs)
  exact aux msgs f.init (inv_init f)

theorem tail_invariant_witness :
    Inv (SipContext.mk 3 1 2 3 4 0x0201 2) ∧
    Inv ((SipContext.mk 3 1 2 3 4 0x0201 2).update [9, 10, 11]) :=
  ⟨by decide,
   tail_invariant.2.1 (SipContext.mk 3 1 2 3 4 0x0201 2) [9, 10, 11] (by decide)⟩

/-- C7: for every engine state with a nonempty pending tail and an input
shorter than the space left in it, update packs the input bytes little-endian
into tail above the existing ntail bytes, adds the input length to ntail and
to the length counter, and leaves the four lanes untouched. -/
theorem partial_fill_frame (s : SipContext) (msg : List Nat)
    (h0 : 0 < s.ntail) (hlen : msg.length < 8 - s.ntail) :
    (s.update msg).v0 = s.v0 ∧ (s.update msg).v1 = s.v1 ∧
    (s.update msg).v2 = s.v2 ∧ (s.update msg).v3 = s.v3 ∧
    (s.update msg).length = s.length + msg.length ∧
    (s.update msg).ntail = s.ntail + msg.length ∧
    (s.update msg).tail = s.tail ||| (packLE msg <<< (8 * s.ntail)) := by
  have hne : s.ntail ≠ 0 := by omega
  rw [update_def, if_pos hne, if_pos hlen]
  refine ⟨rfl, rfl, rfl, rfl, rfl, rfl, ?_⟩
  show s.tail ||| wrap64 ((u8to64_le msg 0 msg.length) <<< (8 * s.ntail)) = _
  have hb : packLE msg <<< (8 * s.ntail) < 2 ^ 64 := by
    rw [Nat.shiftLeft_eq]
    have hX := packLE_lt msg
    have h2 : packLE msg * 2 ^ (8 * s.ntail)
        < 2 ^ (8 * msg.length) * 2 ^ (8 * s.ntail) :=
      mul_lt_mul_of_pos_right hX (by positivity)
    have h3 : 2 ^ (8 * msg.length) * 2 ^ (8 * s.ntail) ≤ 2 ^ 64 := by
      rw [← pow_add]
      exact Nat.pow_le_pow_right (by norm_num) (by omega)
    omega
  rw [u8to64_le_full, wrap64_eq_of_lt hb]

theorem partial_fill_frame_witness :
    ((SipContext.mk 0 1 2 3 4 0x0201 2).update [5]).tail
      = (SipContext.mk 0 1 2 3 4 0x0201 2).tail
        ||| (packLE [5] <<< (8 * (SipContext.mk 0 1 2 3 4 0x0201 2).ntail)) :=
  (partial_fill_frame (SipContext.mk 0 1 2 3 4 0x0201 2) [5]
    (by decide) (by decide)).2.2.2.2.2.2

/-- C1: chunking invariance: for every key pair and every partition of a byte
sequence into an ordered list of chunks, feeding the chunks to a fresh engine
through successive update calls and finishing yields the same digest as one
update call on the concatenation followed by finish. -/
theorem chunking_invariance (f : SipHashFunction) (chunks : List (List Nat)) :
    (chunks.foldl SipContext.update f.init).finish
      = (f.init.update chunks.flatten).finish := by
  have key : ∀ (l : List (List Nat)) (s : SipContext), Inv s →
      l.foldl SipContext.update s = s.update l.flatten := by
    intro l
    induction l with
    | nil =>
      intro s hs
      exact (update_nil s hs).symm
    | cons c cs ih =>
      intro s hs
      rw [List.foldl_cons, List.flatten_cons, ih (s.update c) (inv_update s c hs),
          update_append s c cs.flatten hs]
  rw [key chunks f.init (inv_init f)]

/-- C3: for every factory and every byte sequence, the factory-level one-shot
digest equals init, one update on the fresh engine, then finish; in the
source digest is the default trait method defined in exactly this way. -/
theorem digest_one_shot (f : SipHashFunction) (bytes : List Nat) :
    f.digest bytes = ((f.init).update bytes).finish := rfl

/-- C8: for every factory and every byte value, digest_u8 returns the digest
of the one-element byte sequence holding that byte. -/
theorem digest_u8_eq_digest_singleton (f : SipHashFunction) (b : Nat) :
    f.digest_u8 b = f.digest [b] := rfl

/-- C5: for every key pair, init produces the engine whose lanes are the keys
xored with the four SipHash magic constants, with length, tail and ntail all
zero; as a plain function of the keys it yields this same state on every
call. -/
theorem init_spec (k0 k1 : Nat) :
    (SipHashFunction.mk k0 k1).init =
      { length := 0,
        v0 := k0 ^^^ 0x736f6d6570736575,
        v2 := k0 ^^^ 0x6c7967656e657261,
        v1 := k1 ^^^ 0x646f72616e646f6d,
        v3 := k1 ^^^ 0x7465646279746573,
        tail := 0,
        ntail := 0 } := rfl

/-- C4: for every engine state, finish returns the value obtained by building
pad from the low length byte shifted to the top or-ed with tail, absorbing
pad as a block (v3 xor pad, two compression rounds, v0 xor pad), xoring 0xff
into v2, running four more compression rounds, and xoring the four lanes. -/
theorem finish_spec (s : SipContext) :
    s.finish =
      (let pad := ((s.length % 256) <<< 56) ||| s.tail
       let v := absorbBlock s.lanes pad
       let v := compress (compress (compress (compress { v with v2 := v.v2 ^^^ 0xff })))
       v.v0 ^^^ v.v1 ^^^ v.v2 ^^^ v.v3) := rfl

/-- C9: the one-shot digest of the byte 42 under the key pair (0, 0) differs
from the one under the key pair (7, 39). -/
theorem key_sensitivity_spot :
    (SipHashFunction.mk 0 0).digest [42] ≠ (SipHashFunction.mk 7 39).digest [42] := by
  decide

set_option maxRecDepth 20000 in
/-- C2: with keys k0 = 0x0706050403020100 and k1 = 0x0f0e0d0c0b0a0908, the
one-shot digest of the message 0, 1, ..., len-1 equals the published
SipHash-2-4 reference vector for every length 0 through 63, and in
particular the digest of the empty input equals the zero-length vector. -/
theorem known_vectors :
    ((List.range 64).map
        (fun n =>
          (SipHashFunction.mk 0x0706050403020100 0x0f0e0d0c0b0a0908).digest (List.range n)))
      = sipRefVectors ∧
    (SipHashFunction.mk 0x0706050403020100 0x0f0e0d0c0b0a0908).digest []
      = 0x726fdb47dd0e0e31 := by
  exact ⟨by rfl, by rfl⟩

end RustHash
